import Mathlib

/-!
Verification of the uberlog shared-memory logging engine.

The definitions below are a shallow embedding of the C++ sources of the
IMQS/uberlog repository (uberlog.h, uberlog.cpp, uberlogger.cpp).  Machine
integers (`size_t`, `uint64_t`, `uint32_t`) are modelled as `Nat` with
explicit reduction modulo `2 ^ 64` (resp. `2 ^ 32`) wherever the C code can
wrap around.  A C function that can call `Panic` is modelled as an
`Option`-valued function returning `none` on the panic path.
-/

namespace Uberlog

/-- Modulus of a 64-bit machine word: `size_t` and `uint64_t` arithmetic is
performed modulo this value. -/
def W64 : Nat := 2 ^ 64

/-- Modulus of a 32-bit machine word. -/
def W32 : Nat := 2 ^ 32

/-- C `size_t` subtraction `a - b` for operands `a, b < 2 ^ 64`
(unsigned wraparound semantics). -/
def sub64 (a b : Nat) : Nat := (a + W64 - b) % W64

theorem sub64_eq_sub (a b : Nat) (hb : b ≤ a) (ha : a < W64) :
    sub64 a b = a - b := by
  unfold sub64
  have h1 : a + W64 - b = (a - b) + W64 := by omega
  rw [h1, Nat.add_mod_right, Nat.mod_eq_of_lt (by omega)]

theorem sub64_lt (a b : Nat) (hb : b ≤ W64) : sub64 a b < W64 := by
  unfold sub64
  exact Nat.mod_lt _ (by unfold W64; positivity)

/-!
## Ring buffer cursors (uberlog.cpp, `RingBuffer`)

`RingBuffer` keeps two `size_t` cursors at the tail of the shared region.
`Buf`/the payload bytes are not needed for the cursor-arithmetic claims; the
structure below carries `Size` and the two cursor values.
-/

/-- Cursor state of `RingBuffer`: `Size`, and the two `size_t` cursors stored
in the shared region (`ReadPtr`, `WritePtr`). -/
structure RingPtrs where
  size : Nat
  readp : Nat
  writep : Nat
deriving Repr, DecidableEq

/-- `RingBuffer::AvailableForRead`: `(writep - readp) & (Size - 1)` with
`size_t` subtraction and the bit mask of the source. -/
def RingPtrs.availableForRead (r : RingPtrs) : Nat :=
  sub64 r.writep r.readp &&& sub64 r.size 1

/-- `RingBuffer::AvailableForWrite`: `Size - 1 - AvailableForRead()`,
both subtractions in `size_t`. -/
def RingPtrs.availableForWrite (r : RingPtrs) : Nat :=
  sub64 (sub64 r.size 1) r.availableForRead

/-- `RingBuffer::Init(buf, size, reset)`.  Panics (`none`) when
`(size & (size - 1)) != 0`; otherwise records the size and, if `reset`,
stores 0 into both cursors (else the cursors keep their previous shared
values `oldRead`, `oldWrite`). -/
def ringInit (size : Nat) (reset : Bool) (oldRead oldWrite : Nat) :
    Option RingPtrs :=
  if size &&& sub64 size 1 ≠ 0 then none
  else some { size := size
              readp := if reset then 0 else oldRead
              writep := if reset then 0 else oldWrite }

/-- `RingBuffer::Write(data, len)` with `data != null`: guarded by the
`WriteNoCommit` panic `AvailableForWrite() < len`, then stores
`(writep + len) & (Size - 1)` into the write cursor. -/
def RingPtrs.write (r : RingPtrs) (len : Nat) : Option RingPtrs :=
  if r.availableForWrite < len then none
  else some { r with writep := ((r.writep + len) % W64) &&& sub64 r.size 1 }

/-- `RingBuffer::Read(data, max_len)`: copies
`copy = min(max_len, AvailableForRead())` bytes and stores
`(readp + copy) & (Size - 1)` into the read cursor; returns `copy`. -/
def RingPtrs.read (r : RingPtrs) (maxLen : Nat) : RingPtrs × Nat :=
  let copy := min maxLen r.availableForRead
  ({ r with readp := ((r.readp + copy) % W64) &&& sub64 r.size 1 }, copy)

/-- Result of `RingBuffer::ReadNoCopy`: two spans into the ring buffer,
given as (offset into `Buf`, length) pairs; the second span always starts at
offset 0 (`ptr2 = Buf`). -/
structure Spans where
  pos1 : Nat
  size1 : Nat
  pos2 : Nat
  size2 : Nat
deriving Repr, DecidableEq

/-- `RingBuffer::ReadNoCopy(len, ...)` of the current revision
(`uberlog.cpp`): panics when `len > AvailableForRead()`; otherwise yields one
span when `pos1 + len <= Size` and two spans otherwise.  The function
performs no store to the read cursor, so the returned state is the input
state unchanged. -/
def RingPtrs.readNoCopy (r : RingPtrs) (len : Nat) :
    Option (Spans × RingPtrs) :=
  if len > r.availableForRead then none
  else if (r.readp + len) % W64 ≤ r.size then
    some ({ pos1 := r.readp, size1 := len, pos2 := 0, size2 := 0 }, r)
  else
    some ({ pos1 := r.readp, size1 := sub64 r.size r.readp, pos2 := 0
            size2 := sub64 len (sub64 r.size r.readp) }, r)

/-- Well-formed cursor state: both cursors lie inside `[0, Size)`. -/
def RingPtrs.Wf (r : RingPtrs) : Prop := r.readp < r.size ∧ r.writep < r.size

instance (r : RingPtrs) : Decidable r.Wf := by
  unfold RingPtrs.Wf; infer_instance

/-- A power-of-two ring size representable in `size_t`. -/
def Pow2Size (s : Nat) : Prop := ∃ k, k < 64 ∧ s = 2 ^ k

theorem pow2_mask_mod {s : Nat} (hs : Pow2Size s) (x : Nat) :
    x &&& sub64 s 1 = x % s := by
  obtain ⟨k, hk, rfl⟩ := hs
  have h1 : sub64 (2 ^ k) 1 = 2 ^ k - 1 := by
    apply sub64_eq_sub _ _ (Nat.one_le_two_pow)
    unfold W64; exact Nat.pow_lt_pow_right (by norm_num) hk
  rw [h1, Nat.and_pow_two_sub_one_eq_mod]

theorem Pow2Size.pos {s : Nat} (hs : Pow2Size s) : 0 < s := by
  obtain ⟨k, _, rfl⟩ := hs; positivity

theorem Pow2Size.lt_w64 {s : Nat} (hs : Pow2Size s) : s < W64 := by
  obtain ⟨k, hk, rfl⟩ := hs
  unfold W64; exact Nat.pow_lt_pow_right (by norm_num) hk

theorem availableForRead_lt {r : RingPtrs} (hs : Pow2Size r.size) :
    r.availableForRead < r.size := by
  unfold RingPtrs.availableForRead
  rw [pow2_mask_mod hs]
  exact Nat.mod_lt _ hs.pos

theorem availableForWrite_eq {r : RingPtrs} (hs : Pow2Size r.size) :
    r.availableForWrite = r.size - 1 - r.availableForRead := by
  unfold RingPtrs.availableForWrite
  have h1 : sub64 r.size 1 = r.size - 1 :=
    sub64_eq_sub _ _ hs.pos hs.lt_w64
  have h2 : r.availableForRead ≤ r.size - 1 := by
    have := availableForRead_lt hs; omega
  rw [h1, sub64_eq_sub _ _ h2 (by have := hs.lt_w64; omega)]

/-- The ring-cursor invariant of claim C2, as a predicate. -/
theorem avail_sum {r : RingPtrs} (hs : Pow2Size r.size) :
    r.availableForWrite + r.availableForRead = r.size - 1 := by
  rw [availableForWrite_eq hs]
  have := availableForRead_lt hs
  omega

/-- Operations of claim C2: a data `Write` and a `Read`. -/
inductive RingOp where
  | write (len : Nat)
  | read (maxLen : Nat)
deriving Repr, DecidableEq

/-- Applies one ring operation; `none` when the operation panics
(an unsuccessful operation). -/
def applyOp (r : RingPtrs) : RingOp → Option RingPtrs
  | .write len => r.write len
  | .read maxLen => some (r.read maxLen).1

/-- Runs a sequence of ring operations, all of which must succeed. -/
def runOps (r : RingPtrs) : List RingOp → Option RingPtrs
  | [] => some r
  | op :: rest => (applyOp r op).bind fun r2 => runOps r2 rest

theorem applyOp_wf {r r2 : RingPtrs} (hs : Pow2Size r.size) (hwf : r.Wf)
    (op : RingOp) (h : applyOp r op = some r2) :
    Pow2Size r2.size ∧ r2.Wf := by
  obtain ⟨hr, hw⟩ := hwf
  cases op with
  | write len =>
    unfold applyOp RingPtrs.write at h
    by_cases hg : r.availableForWrite < len
    · simp [hg] at h
    · simp [hg] at h
      subst h
      refine ⟨hs, hr, ?_⟩
      simp only [pow2_mask_mod hs]
      exact Nat.mod_lt _ hs.pos
  | read maxLen =>
    unfold applyOp RingPtrs.read at h
    simp at h
    subst h
    refine ⟨hs, ?_, hw⟩
    simp only [pow2_mask_mod hs]
    exact Nat.mod_lt _ hs.pos

theorem runOps_wf {r r2 : RingPtrs} (hs : Pow2Size r.size) (hwf : r.Wf)
    (ops : List RingOp) (h : runOps r ops = some r2) :
    Pow2Size r2.size ∧ r2.Wf := by
  induction ops generalizing r with
  | nil => unfold runOps at h; simp at h; subst h; exact ⟨hs, hwf⟩
  | cons op rest ih =>
    unfold runOps at h
    obtain ⟨rmid, hmid, hrest⟩ := Option.bind_eq_some.mp h
    obtain ⟨hs2, hwf2⟩ := applyOp_wf hs hwf op hmid
    exact ih hs2 hwf2 hrest

/-- C2: For every power-of-two ring size `S` and every sequence of successful
`Write` and `Read` operations on an initialized ring, after each operation
`AvailableForWrite() + AvailableForRead() = S - 1`, and both cursor values
stored in the ring region lie in `[0, S)`.  (The operation list is arbitrary,
so the conclusion holds after every prefix of a run.) -/
theorem C2_ring_invariant (k : Nat) (hk : k < 64) (a b : Nat)
    (r0 r : RingPtrs) (ops : List RingOp)
    (hinit : ringInit (2 ^ k) true a b = some r0)
    (hrun : runOps r0 ops = some r) :
    r.availableForWrite + r.availableForRead = r.size - 1 ∧
      r.readp < r.size ∧ r.writep < r.size := by
  have hs0 : Pow2Size (2 ^ k) := ⟨k, hk, rfl⟩
  have h0 : r0 = { size := 2 ^ k, readp := 0, writep := 0 } := by
    unfold ringInit at hinit
    rw [pow2_mask_mod hs0] at hinit
    simp [Nat.mod_self] at hinit
    exact hinit.symm
  subst h0
  have hwf0 : RingPtrs.Wf { size := 2 ^ k, readp := 0, writep := 0 } :=
    ⟨hs0.pos, hs0.pos⟩
  obtain ⟨hs, hwf⟩ := runOps_wf hs0 hwf0 ops hrun
  exact ⟨avail_sum hs, hwf.1, hwf.2⟩

/-- Witness for C2 at `S = 8` with a concrete successful run. -/
theorem C2_ring_invariant_witness :
    ∃ r, runOps { size := 8, readp := 0, writep := 0 }
        [RingOp.write 5, RingOp.read 3, RingOp.write 4] = some r ∧
      (r.availableForWrite + r.availableForRead = r.size - 1 ∧
        r.readp < r.size ∧ r.writep < r.size) := by
  refine ⟨{ size := 8, readp := 3, writep := 1 }, ?_, ?_⟩
  · decide
  · exact C2_ring_invariant 3 (by decide) 0 0
      { size := 8, readp := 0, writep := 0 }
      { size := 8, readp := 3, writep := 1 }
      [RingOp.write 5, RingOp.read 3, RingOp.write 4] (by decide) (by decide)

/-!
## Claim C3: `RingBuffer::Init` and the power-of-two check

The check in the source is `if ((size & (size - 1)) != 0) Panic(...)`.
We characterise it: the check passes exactly when `size` is 0 or a power of
two — so `Init(buf, 0, reset)` does NOT panic, contrary to the claim.
-/

theorem and_pred_eq_zero_of_pow2 (k : Nat) : 2 ^ k &&& (2 ^ k - 1) = 0 := by
  rw [Nat.and_pow_two_sub_one_eq_mod, Nat.mod_self]

theorem exists_testBit_of_ne_zero {n : Nat} (h : n ≠ 0) :
    ∃ i, n.testBit i = true := by
  obtain ⟨i, hi, _⟩ := Nat.exists_most_significant_bit h
  exact ⟨i, hi⟩

theorem and_pred_ne_zero :
    ∀ x, 0 < x → (¬ ∃ k, x = 2 ^ k) → x &&& (x - 1) ≠ 0 := by
  intro x
  induction x using Nat.strong_induction_on with
  | _ x ih =>
    intro hx hnp
    have key : ∃ j, x.testBit j = true ∧ (x - 1).testBit j = true := by
      rcases Nat.even_or_odd x with he | ho
      · -- x = 2 * m with m ≥ 1 and m not a power of two
        obtain ⟨m, hm⟩ := he
        have hx2 : x = 2 * m := by omega
        have hm1 : 1 ≤ m := by omega
        have hmnp : ¬ ∃ k, m = 2 ^ k := by
          rintro ⟨k, rfl⟩
          exact hnp ⟨k + 1, by rw [hx2]; ring⟩
        have hland := ih m (by omega) hm1 hmnp
        obtain ⟨j, hj⟩ := exists_testBit_of_ne_zero hland
        rw [Nat.testBit_land, Bool.and_eq_true] at hj
        refine ⟨j + 1, ?_, ?_⟩
        · rw [Nat.testBit_add_one, hx2]
          have : 2 * m / 2 = m := by omega
          rw [this]; exact hj.1
        · rw [Nat.testBit_add_one, hx2]
          have : (2 * m - 1) / 2 = m - 1 := by omega
          rw [this]; exact hj.2
      · -- x = 2 * m + 1 with m ≥ 1 (x = 1 is the power 2 ^ 0)
        obtain ⟨m, hm⟩ := ho
        have hm1 : 1 ≤ m := by
          rcases Nat.eq_zero_or_pos m with h0 | h1
          · exfalso; exact hnp ⟨0, by omega⟩
          · exact h1
        obtain ⟨j, hj⟩ := exists_testBit_of_ne_zero (by omega : m ≠ 0)
        refine ⟨j + 1, ?_, ?_⟩
        · rw [Nat.testBit_add_one, hm]
          have : (2 * m + 1) / 2 = m := by omega
          rw [this]; exact hj
        · rw [Nat.testBit_add_one, hm]
          have : (2 * m + 1 - 1) / 2 = m := by omega
          rw [this]; exact hj
    obtain ⟨j, hj1, hj2⟩ := key
    intro hzero
    have := Nat.testBit_land x (x - 1) j
    rw [hzero, hj1, hj2, Nat.zero_testBit] at this
    simp at this

/-- Helper: the value of the source's power-of-two check. -/
theorem init_check_eq_zero_iff (S : Nat) (hS : S < W64) :
    S &&& sub64 S 1 = 0 ↔ (S = 0 ∨ ∃ k, S = 2 ^ k) := by
  rcases Nat.eq_zero_or_pos S with rfl | hpos
  · rw [Nat.zero_and]
    exact ⟨fun _ => Or.inl rfl, fun _ => rfl⟩
  · have hsub : sub64 S 1 = S - 1 := sub64_eq_sub S 1 hpos hS
    rw [hsub]
    constructor
    · intro h
      by_contra hc
      push_neg at hc
      exact and_pred_ne_zero S hpos (fun ⟨k, hk⟩ => hc.2 k hk) h
    · rintro (rfl | ⟨k, rfl⟩)
      · omega
      · exact and_pred_eq_zero_of_pow2 k

/-- C3 counterexample: the claim says `Init` panics when `S` is not a power
of two, including `S = 0`; but the source check `(size & (size - 1)) != 0`
evaluates to `0 & 0xFF..FF = 0` at `size = 0`, so `Init(buf, 0, true)` does
not panic (and 0 is not a power of two). -/
theorem C3_zero_size_no_panic :
    ringInit 0 true 0 0 = some { size := 0, readp := 0, writep := 0 } ∧
      ¬ ∃ k, (0 : Nat) = 2 ^ k := by
  constructor
  · decide
  · rintro ⟨k, hk⟩
    have : 0 < 2 ^ k := Nat.pow_pos (by norm_num)
    omega

/-- C3 (amended): for every `size_t` value `S`, `RingBuffer::Init(buf, S,
reset)` panics exactly when `S` is nonzero and not a power of two (so
`S = 0` passes the check, contrary to the original claim); when it does not
panic and `reset` is true, it stores 0 into both the read and write
cursors. -/
theorem C3_init_characterisation (S a b : Nat) (hS : S < W64) :
    (ringInit S true a b = none ↔ (S ≠ 0 ∧ ¬ ∃ k, S = 2 ^ k)) ∧
      (∀ r, ringInit S true a b = some r →
        r.size = S ∧ r.readp = 0 ∧ r.writep = 0) := by
  by_cases hzero : S &&& sub64 S 1 = 0
  · constructor
    · rw [show ringInit S true a b
          = some { size := S, readp := 0, writep := 0 } by
            unfold ringInit; simp [hzero]]
      constructor
      · intro h; exact absurd h (by simp)
      · intro ⟨h1, h2⟩
        rcases (init_check_eq_zero_iff S hS).mp hzero with h | h
        · exact absurd h h1
        · exact absurd h h2
    · intro r hr
      unfold ringInit at hr
      simp [hzero] at hr
      subst hr
      exact ⟨rfl, rfl, rfl⟩
  · constructor
    · rw [show ringInit S true a b = none by unfold ringInit; simp [hzero]]
      constructor
      · intro _
        constructor
        · rintro rfl
          exact hzero ((init_check_eq_zero_iff 0 hS).mpr (Or.inl rfl))
        · rintro ⟨k, hk⟩
          exact hzero ((init_check_eq_zero_iff S hS).mpr (Or.inr ⟨k, hk⟩))
      · intro _; rfl
    · intro r hr
      unfold ringInit at hr
      simp [hzero] at hr

/-- Auxiliary fact for the C3 witness: 6 is not a power of two. -/
theorem six_not_pow2 : ¬ ∃ k, (6 : Nat) = 2 ^ k := by
  rintro ⟨k, hk⟩
  rcases Nat.lt_or_ge k 3 with h | h
  · interval_cases k <;> omega
  · have : 2 ^ 3 ≤ 2 ^ k := Nat.pow_le_pow_right (by norm_num) h
    omega

/-- Witness for C3: `Init` panics at the non-power-of-two size 6, and at the
power of two 4 with `reset = true` it records the size and zeroes both
cursors. -/
theorem C3_init_characterisation_witness :
    ringInit 6 true 0 0 = none ∧
      (RingPtrs.size { size := 4, readp := 0, writep := 0 } = 4 ∧
        RingPtrs.readp { size := 4, readp := 0, writep := 0 } = 0 ∧
        RingPtrs.writep { size := 4, readp := 0, writep := 0 } = 0) := by
  constructor
  · exact (C3_init_characterisation 6 0 0 (by decide)).1.mpr
      ⟨by decide, six_not_pow2⟩
  · exact (C3_init_characterisation 4 9 9 (by decide)).2
      { size := 4, readp := 0, writep := 0 } (by decide)

/-!
## Claim C4: `RingBuffer::ReadNoCopy`
-/

theorem Pow2Size.two_mul_le {s : Nat} (hs : Pow2Size s) : 2 * s ≤ W64 := by
  obtain ⟨k, hk, rfl⟩ := hs
  have : 2 * 2 ^ k = 2 ^ (k + 1) := by ring
  rw [this]
  exact Nat.pow_le_pow_right (by norm_num) (by omega)

/-- C4: for every `n` not exceeding `AvailableForRead()`, `ReadNoCopy(n)`
yields one or two contiguous spans whose sizes sum to `n`, the second span
being non-empty exactly when the read position plus `n` exceeds `Size`; it
does not advance the read cursor (the state it leaves behind is the input
state), and the read cursor advances to `(readp + n) mod Size` only through
the follow-up call `Read(null, n)`. -/
theorem C4_readNoCopy (r : RingPtrs) (n : Nat) (hs : Pow2Size r.size)
    (hwf : r.Wf) (hn : n ≤ r.availableForRead) :
    ∃ sp, r.readNoCopy n = some (sp, r) ∧
      sp.pos1 = r.readp ∧ sp.pos2 = 0 ∧
      sp.size1 + sp.size2 = n ∧
      (sp.size2 ≠ 0 ↔ r.size < r.readp + n) ∧
      ((r.read n).2 = n ∧
        (r.read n).1.readp = (r.readp + n) % r.size ∧
        (r.read n).1.writep = r.writep) := by
  have haf : r.availableForRead < r.size := availableForRead_lt hs
  have hnsz : n < r.size := by omega
  have hrd : r.readp < r.size := hwf.1
  have hlt : r.readp + n < W64 := by
    have := hs.two_mul_le; omega
  have hread : (r.read n).2 = n ∧
      (r.read n).1.readp = (r.readp + n) % r.size ∧
      (r.read n).1.writep = r.writep := by
    unfold RingPtrs.read
    refine ⟨by simp; omega, ?_, rfl⟩
    simp only [min_eq_left hn]
    rw [Nat.mod_eq_of_lt hlt, pow2_mask_mod hs]
  unfold RingPtrs.readNoCopy
  rw [if_neg (by omega), Nat.mod_eq_of_lt hlt]
  by_cases hcase : r.readp + n ≤ r.size
  · rw [if_pos hcase]
    refine ⟨_, rfl, rfl, rfl, rfl, ?_, hread⟩
    show (0 : Nat) ≠ 0 ↔ r.size < r.readp + n
    omega
  · rw [if_neg hcase]
    have h1 : sub64 r.size r.readp = r.size - r.readp :=
      sub64_eq_sub _ _ (by omega) hs.lt_w64
    have h2 : sub64 n (r.size - r.readp) = n - (r.size - r.readp) :=
      sub64_eq_sub _ _ (by omega) (by omega)
    refine ⟨_, rfl, rfl, rfl, ?_, ?_, hread⟩
    · simp only [h1, h2]; omega
    · simp only [h1, h2]; omega

/-- Witness for C4 at `S = 8`, `readp = 6`, `writep = 2`, `n = 3`
(a wrapping read: spans of sizes 2 and 1). -/
theorem C4_readNoCopy_witness :
    ∃ sp, RingPtrs.readNoCopy { size := 8, readp := 6, writep := 2 } 3 =
        some (sp, { size := 8, readp := 6, writep := 2 }) ∧
      sp.pos1 = 6 ∧ sp.pos2 = 0 ∧ sp.size1 + sp.size2 = 3 ∧
      (sp.size2 ≠ 0 ↔ (8 : Nat) < 6 + 3) ∧
      ((RingPtrs.read { size := 8, readp := 6, writep := 2 } 3).2 = 3 ∧
        (RingPtrs.read { size := 8, readp := 6, writep := 2 } 3).1.readp =
          (6 + 3) % 8 ∧
        (RingPtrs.read { size := 8, readp := 6, writep := 2 } 3).1.writep =
          2) :=
  C4_readNoCopy { size := 8, readp := 6, writep := 2 } 3
    ⟨3, by decide, rfl⟩ (by constructor <;> decide) (by decide)


/-!
## Claim C10: `RoundUpToPowerOf2` (uberlog.cpp)

The source is `size_t x = 1; while (x < v) x <<= 1; return x;`.  The loop is
modelled with explicit fuel: `none` means the loop has not terminated within
`fuel` guard evaluations.  The left shift wraps modulo `2 ^ 64`, so once
`x = 2 ^ 63` the next shift produces 0, and for every `v > 2 ^ 63` the loop
never terminates.
-/

/-- Loop of `RoundUpToPowerOf2`, with fuel counting guard evaluations.
Each iteration performs the `size_t` shift `x <<= 1`. -/
def ruLoop : Nat → Nat → Nat → Option Nat
  | 0, _, _ => none
  | fuel + 1, x, v => if x < v then ruLoop fuel ((x * 2) % W64) v else some x

theorem ruLoop_pow_step (d : Nat) :
    ∀ fuel j v, v ≤ 2 ^ 63 → j + d = Nat.clog 2 v → d < fuel →
      ruLoop fuel (2 ^ j) v = some (2 ^ Nat.clog 2 v) := by
  induction d with
  | zero =>
    intro fuel j v hv hj hfuel
    obtain ⟨f2, rfl⟩ := Nat.exists_eq_add_of_lt hfuel
    have hj2 : j = Nat.clog 2 v := by omega
    subst hj2
    have hstop : ¬ 2 ^ Nat.clog 2 v < v := by
      have := Nat.le_pow_clog (by norm_num : (1 : Nat) < 2) v
      omega
    unfold ruLoop
    rw [if_neg hstop]
  | succ d ih =>
    intro fuel j v hv hj hfuel
    obtain ⟨f2, rfl⟩ := Nat.exists_eq_add_of_lt hfuel
    have hgo : 2 ^ j < v := by
      by_contra hc
      have : Nat.clog 2 v ≤ j := (Nat.le_pow_iff_clog_le (by norm_num)).mp
        (by omega)
      omega
    have hclog63 : Nat.clog 2 v ≤ 63 :=
      (Nat.le_pow_iff_clog_le (by norm_num)).mp hv
    have hmod : (2 ^ j * 2) % W64 = 2 ^ (j + 1) := by
      have hpow : 2 ^ j * 2 = 2 ^ (j + 1) := by ring
      rw [hpow]
      exact Nat.mod_eq_of_lt
        (Nat.pow_lt_pow_right (by norm_num) (by omega))
    show ruLoop ((d + 1) + f2 + 1) (2 ^ j) v = some (2 ^ Nat.clog 2 v)
    unfold ruLoop
    rw [if_pos hgo, hmod]
    exact ih _ (j + 1) v hv (by omega) (by omega)

/-- C10 counterexample: at `v = 2 ^ 63 + 1` the loop of
`RoundUpToPowerOf2` never terminates (the shift wraps to 0 and the guard
`x < v` then holds forever), so the claim that the function terminates for
every `size_t` input is false. -/
theorem C10_nontermination :
    ¬ ∃ fuel r, ruLoop fuel 1 (2 ^ 63 + 1) = some r := by
  have stuck : ∀ fuel x, (x = 0 ∨ ∃ k, k ≤ 63 ∧ x = 2 ^ k) →
      ruLoop fuel x (2 ^ 63 + 1) = none := by
    intro fuel
    induction fuel with
    | zero => intro x _; rfl
    | succ f ih =>
      intro x hx
      have hguard : x < 2 ^ 63 + 1 := by
        rcases hx with rfl | ⟨k, hk, rfl⟩
        · positivity
        · have : 2 ^ k ≤ 2 ^ 63 := Nat.pow_le_pow_right (by norm_num) hk
          omega
      unfold ruLoop
      rw [if_pos hguard]
      apply ih
      rcases hx with rfl | ⟨k, hk, rfl⟩
      · left; rfl
      · rcases Nat.lt_or_ge k 63 with hlt | hge
        · right
          refine ⟨k + 1, by omega, ?_⟩
          have hpow : 2 ^ k * 2 = 2 ^ (k + 1) := by ring
          rw [hpow]
          exact Nat.mod_eq_of_lt
            (Nat.pow_lt_pow_right (by norm_num) (by omega))
        · left
          have hk63 : k = 63 := by omega
          subst hk63
          have hpow : 2 ^ 63 * 2 = 2 ^ 64 := by ring
          rw [hpow]
          show 2 ^ 64 % W64 = 0
          unfold W64
          exact Nat.mod_self _
  rintro ⟨fuel, r, hr⟩
  rw [stuck fuel 1 (Or.inr ⟨0, by omega, rfl⟩)] at hr
  exact Option.noConfusion hr

/-- C10 (amended): for every `v ≤ 2 ^ 63` (the largest power of two
representable in `size_t`), the loop of `RoundUpToPowerOf2` terminates
within 64 guard evaluations and returns the smallest power of two greater
than or equal to `v` (1 when `v` is 0 or 1); for larger `v` the loop never
terminates (see the counterexample). -/
theorem C10_roundUpToPowerOf2 (v fuel : Nat) (hv : v ≤ 2 ^ 63)
    (hfuel : 64 ≤ fuel) :
    ruLoop fuel 1 v = some (2 ^ Nat.clog 2 v) ∧
      v ≤ 2 ^ Nat.clog 2 v ∧
      (∀ k, v ≤ 2 ^ k → 2 ^ Nat.clog 2 v ≤ 2 ^ k) ∧
      (v ≤ 1 → 2 ^ Nat.clog 2 v = 1) := by
  have hclog63 : Nat.clog 2 v ≤ 63 :=
    (Nat.le_pow_iff_clog_le (by norm_num)).mp hv
  refine ⟨?_, Nat.le_pow_clog (by norm_num) v, ?_, ?_⟩
  · have h1 : (1 : Nat) = 2 ^ 0 := rfl
    rw [h1]
    exact ruLoop_pow_step (Nat.clog 2 v) fuel 0 v hv (by omega) (by omega)
  · intro k hk
    exact Nat.pow_le_pow_right (by norm_num)
      ((Nat.le_pow_iff_clog_le (by norm_num)).mp hk)
  · intro hv1
    have : Nat.clog 2 v ≤ 0 :=
      (Nat.le_pow_iff_clog_le (by norm_num)).mp (by simpa using hv1)
    simp [Nat.le_zero.mp this]

/-- Witness for C10 at `v = 5`: the loop returns `8 = 2 ^ clog 2 5`. -/
theorem C10_roundUpToPowerOf2_witness :
    ruLoop 64 1 5 = some (2 ^ Nat.clog 2 5) ∧
      (5 : Nat) ≤ 2 ^ Nat.clog 2 5 :=
  ⟨(C10_roundUpToPowerOf2 5 64 (by norm_num) (by norm_num)).1,
    (C10_roundUpToPowerOf2 5 64 (by norm_num) (by norm_num)).2.1⟩

/-!
## Claim C5: `Logger::LogRaw` truncation (uberlog.cpp)

`LogRaw` computes `maxLen = Ring.MaxAvailableForWrite() - sizeof(MessageHead)`
in `size_t` and truncates `len` to `maxLen` (with an out-of-band warning)
when `len > maxLen`; `SendMessage` panics when
`sizeof(msg) + payload_len > Ring.MaxAvailableForWrite()`.
`sizeof(MessageHead)` is 16 (`u32 + u32 + size_t`).
-/

/-- Size in bytes of `MessageHead { Command, Padding, PayloadLen }`. -/
def messageHeadSize : Nat := 16

/-- `RingBuffer::MaxAvailableForWrite()`: `Size - 1` in `size_t`. -/
def maxAvailableForWrite (size : Nat) : Nat := sub64 size 1

/-- Truncation step of `Logger::LogRaw`: returns (warning-emitted flag,
possibly truncated length).  The bound `maxLen` is computed with `size_t`
subtraction as in the source. -/
def logRawLen (size len : Nat) : Bool × Nat :=
  let maxLen := sub64 (maxAvailableForWrite size) messageHeadSize
  if len > maxLen then (true, maxLen) else (false, len)

/-- Oversize panic guard at the top of `Logger::SendMessage`:
`sizeof(msg) + payload_len > Ring.MaxAvailableForWrite()`. -/
def sendMessageOversize (size plen : Nat) : Bool :=
  decide (messageHeadSize + plen > maxAvailableForWrite size)

/-- C5 counterexample: with ring capacity `S = 16` (a power of two, and a
size an open logger can legitimately have after `SetRingBufferSize(16)`),
the `size_t` bound `S - 1 - sizeof(MessageHead)` wraps around, so `LogRaw`
does not truncate even a zero-length payload and then hits `SendMessage`'s
oversize panic — contradicting the claim that the panic branch is
unreachable from `LogRaw`. -/
theorem C5_small_ring_reaches_panic :
    logRawLen 16 0 = (false, 0) ∧ sendMessageOversize 16 0 = true := by
  constructor <;> decide

/-- C5 (amended): for every ring capacity `S` that is a power of two with
`S > sizeof(MessageHead)` (that is, `S ≥ 32`), `LogRaw`'s bound is
`S - 1 - 16`; a longer payload is truncated to exactly that bound with a
warning, a payload exactly at the bound passes untouched, the enqueued
payload never exceeds the bound, and `SendMessage`'s oversize panic is
unreachable from `LogRaw`.  (For `S ≤ 16` the bound wraps around in
`size_t` and `LogRaw` reaches the panic; see the counterexample.) -/
theorem C5_logRaw_truncation (size len : Nat) (hs : Pow2Size size)
    (hbig : 32 ≤ size) :
    (size - 17 < len → logRawLen size len = (true, size - 17)) ∧
      (len ≤ size - 17 → logRawLen size len = (false, len)) ∧
      (logRawLen size len).2 ≤ size - 17 ∧
      sendMessageOversize size (logRawLen size len).2 = false := by
  have hw : size < W64 := hs.lt_w64
  have h1 : maxAvailableForWrite size = size - 1 :=
    sub64_eq_sub _ _ (by omega) hw
  have h2 : sub64 (maxAvailableForWrite size) messageHeadSize = size - 17 := by
    rw [h1]
    have := sub64_eq_sub (size - 1) 16 (by omega) (by omega)
    simp only [messageHeadSize]
    omega
  have hover : ∀ m, m ≤ size - 17 → sendMessageOversize size m = false := by
    intro m hm
    unfold sendMessageOversize
    rw [h1]
    simp only [messageHeadSize, decide_eq_false_iff_not]
    omega
  unfold logRawLen
  simp only [h2]
  by_cases hcase : size - 17 < len
  · rw [if_pos hcase]
    exact ⟨fun _ => rfl, fun h => absurd h (by omega), by omega,
      hover _ (by omega)⟩
  · rw [if_neg hcase]
    exact ⟨fun h => absurd h hcase, fun _ => rfl, by omega,
      hover _ (by omega)⟩

/-- Witness for C5 at `S = 32`: a 100-byte payload is truncated to 15 bytes
with a warning, a 15-byte payload is enqueued untouched, and the truncated
length does not trip the `SendMessage` panic. -/
theorem C5_logRaw_truncation_witness :
    logRawLen 32 100 = (true, 15) ∧ logRawLen 32 15 = (false, 15) ∧
      sendMessageOversize 32 (logRawLen 32 100).2 = false := by
  have h := C5_logRaw_truncation 32 100 ⟨5, by norm_num, rfl⟩ (by norm_num)
  have h2 := C5_logRaw_truncation 32 15 ⟨5, by norm_num, rfl⟩ (by norm_num)
  refine ⟨?_, ?_, h.2.2.2⟩
  · simpa using h.1 (by norm_num)
  · simpa using h2.2.1 (by norm_num)

/-!
## Claim C6: the wait loop of `Logger::SendMessage` (uberlog.cpp)

The source:
```
if (sizeof(msg) + payload_len > Ring.MaxAvailableForWrite())
    Panic(...);
for (int64_t i = 0; sizeof(msg) + payload_len > Ring.AvailableForWrite(); i++)
{
    if (i < 1000)       SleepMS(0);
    else if (i < 2000)  SleepMS(1);
    else                SleepMS(5);
    if (i == 2001)
        OutOfBandWarning(...);
}
Ring.WriteNoCommit(0, &msg, sizeof(msg));
Ring.WriteNoCommit(sizeof(msg), payload, payload_len);
Ring.Write(nullptr, sizeof(msg) + payload_len);
```
The consumer's progress is an oracle `rp : Nat → Nat` giving the value the
producer reads from the shared read cursor at the i-th guard evaluation
(the producer's own write cursor does not move while it waits).  The loop is
modelled with fuel; it records the sleep durations and the warning
iterations, and on exit commits the frame by storing the new write cursor.
-/

/-- Sleep duration of iteration `i` of the wait loop (the three-tier
back-off branch of the source). -/
def sendSleepMS (i : Nat) : Nat :=
  if i < 1000 then 0 else if i < 2000 then 1 else 5

/-- Ring state the producer observes at guard evaluation `i`. -/
def obsRing (size writep : Nat) (rp : Nat → Nat) (i : Nat) : RingPtrs :=
  { size := size, readp := rp i, writep := writep }

/-- The wait loop of `SendMessage`.  Returns
(exit iteration, sleeps performed, warning iterations, committed write
cursor); `none` when the fuel runs out before space appears. -/
def sendLoop (size writep : Nat) (rp : Nat → Nat) (f : Nat) :
    Nat → Nat → List Nat → List Nat →
      Option (Nat × List Nat × List Nat × Nat)
  | 0, _, _, _ => none
  | fuel + 1, i, sleeps, warns =>
    if f ≤ (obsRing size writep rp i).availableForWrite then
      some (i, sleeps.reverse, warns.reverse,
        ((writep + f) % W64) &&& sub64 size 1)
    else
      sendLoop size writep rp f fuel (i + 1) (sendSleepMS i :: sleeps)
        (if i == 2001 then i :: warns else warns)

/-- `Logger::SendMessage(cmd, payload, payload_len)`: the oversize panic
guard followed by the wait loop and the commit. -/
def sendMessageModel (size writep : Nat) (rp : Nat → Nat) (plen fuel : Nat) :
    Option (Nat × List Nat × List Nat × Nat) :=
  if messageHeadSize + plen > maxAvailableForWrite size then none
  else sendLoop size writep rp (messageHeadSize + plen) fuel 0 [] []

theorem sendLoop_run (size writep : Nat) (rp : Nat → Nat) (f : Nat)
    (N : Nat) :
    ∀ i fuel sleeps warns,
      (∀ j, j < N → (obsRing size writep rp (i + j)).availableForWrite < f) →
      f ≤ (obsRing size writep rp (i + N)).availableForWrite →
      N < fuel →
      sendLoop size writep rp f fuel i sleeps warns =
        some (i + N,
          sleeps.reverse ++ (List.range' i N).map sendSleepMS,
          warns.reverse ++ (List.range' i N).filter (fun j => j == 2001),
          ((writep + f) % W64) &&& sub64 size 1) := by
  induction N with
  | zero =>
    intro i fuel sleeps warns hlt hge hfuel
    obtain ⟨f2, rfl⟩ := Nat.exists_eq_add_of_lt hfuel
    unfold sendLoop
    rw [if_pos (by simpa using hge)]
    simp [List.range']
  | succ N ih =>
    intro i fuel sleeps warns hlt hge hfuel
    obtain ⟨f2, rfl⟩ := Nat.exists_eq_add_of_lt hfuel
    show sendLoop size writep rp f ((N + 1) + f2 + 1 - 1 + 1) i sleeps warns
      = _
    unfold sendLoop
    rw [if_neg (by simpa using Nat.not_le.mpr (hlt 0 (by omega)))]
    have hrec := ih (i + 1) ((N + 1) + f2 + 1 - 1) (sendSleepMS i :: sleeps)
      (if i == 2001 then i :: warns else warns)
      (fun j hj => by
        have := hlt (j + 1) (by omega)
        simpa [Nat.add_assoc, Nat.add_comm 1 j] using this)
      (by
        have h1 : i + 1 + N = i + (N + 1) := by omega
        rw [h1]; exact hge)
      (by omega)
    rw [hrec]
    have hrange : List.range' i (N + 1) = i :: List.range' (i + 1) N := rfl
    have hsleeps : (sendSleepMS i :: sleeps).reverse ++
        (List.range' (i + 1) N).map sendSleepMS =
        sleeps.reverse ++ (List.range' i (N + 1)).map sendSleepMS := by
      rw [hrange]
      simp
    have hwarns : (if i == 2001 then i :: warns else warns).reverse ++
        (List.range' (i + 1) N).filter (fun j => j == 2001) =
        warns.reverse ++ (List.range' i (N + 1)).filter
          (fun j => j == 2001) := by
      rw [hrange]
      by_cases hi : i = 2001
      · subst hi; simp
      · have hb : (i == 2001) = false := by simp [hi]
        simp [hb]
    rw [hsleeps, hwarns]
    have h2 : i + 1 + N = i + (N + 1) := by omega
    rw [h2]

theorem range_filter_2001 (N : Nat) :
    (List.range N).filter (fun j => j == 2001) =
      if 2001 < N then [2001] else [] := by
  induction N with
  | zero => rfl
  | succ N ih =>
    rw [List.range_succ, List.filter_append, ih]
    rcases Nat.lt_trichotomy N 2001 with h | h | h
    · have hb : (N == 2001) = false := by simp; omega
      rw [if_neg (by omega), if_neg (by omega)]
      simp [hb]
    · subst h
      rw [if_neg (by omega), if_pos (by omega)]
      simp
    · have hb : (N == 2001) = false := by simp; omega
      rw [if_pos (by omega), if_pos (by omega)]
      simp [hb]

/-- C6: whenever `SendMessage` enqueues a frame of total size
`f = sizeof(MessageHead) + payload_len` that fits the ring
(`f ≤ MaxAvailableForWrite`, otherwise the oversize guard panics first) and
the ring lacks space for the first `N` guard evaluations but has space at
evaluation `N`, the producer never drops the frame: the loop performs
exactly `N` sleeps following the three-tier schedule (0 ms for iterations
`i < 1000`, 1 ms for `1000 ≤ i < 2000`, 5 ms thereafter), emits exactly one
out-of-band warning — at iteration 2001, and only if the wait lasts that
long — and commits the frame at the first evaluation with
`AvailableForWrite ≥ f`, however large `N` is. -/
theorem C6_sendMessage_backoff (size writep plen N fuel : Nat)
    (rp : Nat → Nat)
    (hlt : ∀ j, j < N →
      (obsRing size writep rp j).availableForWrite < messageHeadSize + plen)
    (hge : messageHeadSize + plen ≤
      (obsRing size writep rp N).availableForWrite)
    (hcap : messageHeadSize + plen ≤ maxAvailableForWrite size)
    (hfuel : N < fuel) :
    sendMessageModel size writep rp plen fuel =
      some (N,
        (List.range N).map
          (fun i => if i < 1000 then 0 else if i < 2000 then 1 else 5),
        (if 2001 < N then [2001] else []),
        ((writep + (messageHeadSize + plen)) % W64) &&& sub64 size 1) := by
  unfold sendMessageModel
  rw [if_neg (by omega)]
  have h := sendLoop_run size writep rp (messageHeadSize + plen) N 0 fuel
    [] [] (fun j hj => by simpa using hlt j hj) (by simpa using hge) hfuel
  rw [h]
  rw [← List.range_eq_range', range_filter_2001]
  simp only [List.reverse_nil, List.nil_append, Nat.zero_add]
  rfl

/-- Witness for C6: `S = 32`, empty payload (`f = 16`), the ring is full at
guard evaluation 0 and has space at evaluation 1; the loop sleeps once
(0 ms), warns never, and commits the write cursor at 16. -/
theorem C6_sendMessage_backoff_witness :
    sendMessageModel 32 0 (fun j => if j = 0 then 1 else 0) 0 2 =
      some (1, [0], [], 16) := by
  have h := C6_sendMessage_backoff 32 0 0 1 2
    (fun j => if j = 0 then 1 else 0)
    (fun j hj => by interval_cases j; decide)
    (by decide) (by decide) (by decide)
  rw [h]
  decide

/-!
## Claim C7: `LoggerSlave::ReadMessages` (uberlogger.cpp)

The writer parses framed messages out of the ring.  Claims C2 and C4
establish the cursor arithmetic; at the level of `ReadMessages` the SPSC
ring is therefore modelled as the FIFO byte sequence currently committed and
readable (`AvailableForRead` = its length, `Ring.Read(dst, n)` = take the
first `n` bytes).  A `MessageHead` occupies 16 bytes: `Cmd` as a
little-endian `u32` at offset 0, 4 bytes of padding, `PayloadLen` as a
little-endian `size_t` at offset 8.  The writer's `Panic` calls are `none`.
The two direct writes of the large-payload path (`ReadNoCopy` spans) carry
the same bytes as the payload; the model records them as one write event of
those bytes, which is what the log file receives.
-/

/-- Little-endian value of a byte list (least significant byte first). -/
def leVal : List Nat → Nat
  | [] => 0
  | b :: rest => b % 256 + 256 * leVal rest

/-- Little-endian encoding of `v` in exactly `n` bytes (truncating). -/
def leBytes : Nat → Nat → List Nat
  | 0, _ => []
  | n + 1, v => v % 256 :: leBytes n (v / 256)

theorem leBytes_length (n v : Nat) : (leBytes n v).length = n := by
  induction n generalizing v with
  | zero => rfl
  | succ n ih => simp [leBytes, ih]

theorem leVal_leBytes (n v : Nat) : leVal (leBytes n v) = v % 256 ^ n := by
  induction n generalizing v with
  | zero => simp [leBytes, leVal, Nat.mod_one]
  | succ n ih =>
    have h256 : (256 : Nat) ^ (n + 1) = 256 * 256 ^ n := by ring
    rw [h256, Nat.mod_mul]
    simp only [leBytes, leVal, ih]
    rw [Nat.mod_mod_of_dvd v (dvd_refl 256)]

/-- Byte layout of `MessageHead { Cmd; Padding; PayloadLen }` for command
`cmd` and payload length `plen`. -/
def head16 (cmd plen : Nat) : List Nat :=
  leBytes 4 cmd ++ leBytes 4 0 ++ leBytes 8 plen

theorem head16_length (cmd plen : Nat) : (head16 cmd plen).length = 16 := by
  simp [head16, leBytes_length]

/-- One frame as transported through the ring: the 16-byte header followed
by the payload bytes. -/
def encodeFrame (cmd : Nat) (payload : List Nat) : List Nat :=
  head16 cmd payload.length ++ payload

/-- The committed content of the ring holding a sequence of frames. -/
def encodeFrames : List (Nat × List Nat) → List Nat
  | [] => []
  | (c, p) :: fs => encodeFrame c p ++ encodeFrames fs

/-- A frame the producer can legitimately commit: a `Close` frame (command
1, sent by `Logger::Close` with a null payload of length 0) or a `LogMsg`
frame (command 2) whose length fits `size_t`. -/
def GoodFrame (f : Nat × List Nat) : Prop :=
  (f.1 = 1 ∧ f.2 = []) ∨ (f.1 = 2 ∧ f.2.length < W64)

/-- `LoggerSlaveWriteBufferSize`, the writer's coalescing buffer size. -/
def writeBufSize : Nat := 1024

/-- Result of one `ReadMessages` pass: the return value `nmessages`, the
received-close flag, and the `Log.Write` calls issued, in order. -/
structure DrainResult where
  nmessages : Nat
  closeSet : Bool
  writes : List (List Nat)
deriving Repr, DecidableEq

/-- Loop of `LoggerSlave::ReadMessages`, with fuel counting loop
iterations (each iteration consumes at least a 16-byte header, so
`bytes.length` fuel always suffices).  `bytes` is the committed unread ring
content, `buf` the staged content of `WriteBuf` (`bufpos = buf.length`),
`close` the received-close flag and `n` the `nmessages` counter.  `none`
models a writer `Panic`. -/
def drainGo : Nat → List Nat → List Nat → Bool → Nat → Option DrainResult
  | 0, _, buf, close, n =>
    some { nmessages := n, closeSet := close
           writes := if buf.length ≠ 0 then [buf] else [] }
  | fuel + 1, bytes, buf, close, n =>
    if bytes.length < 16 then
      -- loop break, then the final flush `if (bufpos != 0) Log.Write(...)`
      some { nmessages := n, closeSet := close
             writes := if buf.length ≠ 0 then [buf] else [] }
    else
      let hd := bytes.take 16
      let rest := bytes.drop 16
      let cmd := leVal (hd.take 4)
      let plen := leVal ((hd.drop 8).take 8)
      if cmd = 1 then
        -- Command::Close: SetReceivedCloseMessage() and continue the loop
        drainGo fuel rest buf true n
      else if cmd = 2 then
        -- Command::LogMsg
        if rest.length < plen then none
          -- Panic: message payload not available in ring buffer
        else
          let payload := rest.take plen
          let rest2 := rest.drop plen
          if plen > writeBufSize - buf.length then
            -- flush `Log.Write(WriteBuf, bufpos)`, then re-test
            if plen ≤ writeBufSize then
              (drainGo fuel rest2 payload close (n + 1)).map
                fun res => { res with writes := buf :: res.writes }
            else
              -- payload larger than the buffer: here bufpos = 0 after the
              -- flush, so the `if (bufpos != 0) Panic` check passes; write
              -- the two `ReadNoCopy` spans directly, then `Read(null, n)`
              (drainGo fuel rest2 [] close (n + 1)).map
                fun res => { res with writes := buf :: payload :: res.writes }
          else
            drainGo fuel rest2 (buf ++ payload) close (n + 1)
      else none  -- default: Panic("Unexpected command")

/-- `LoggerSlave::ReadMessages()` on a ring whose committed unread content
is `bytes`. -/
def readMessages (bytes : List Nat) : Option DrainResult :=
  drainGo bytes.length bytes [] false 0

/-- Number of `LogMsg` frames in a frame list. -/
def countLog : List (Nat × List Nat) → Nat
  | [] => 0
  | (c, _) :: fs => (if c = 2 then 1 else 0) + countLog fs

/-- Whether a frame list contains a `Close` frame. -/
def anyClose : List (Nat × List Nat) → Bool
  | [] => false
  | (c, _) :: fs => (c == 1) || anyClose fs

/-- The payloads of the `LogMsg` frames, in order. -/
def logPayloads : List (Nat × List Nat) → List (List Nat)
  | [] => []
  | (c, p) :: fs => if c = 2 then p :: logPayloads fs else logPayloads fs

theorem encodeFrame_length (c : Nat) (p : List Nat) :
    (encodeFrame c p).length = 16 + p.length := by
  simp [encodeFrame, head16, leBytes_length]
  omega

theorem drainGo_succ (fuel : Nat) (bytes buf : List Nat) (close : Bool)
    (n : Nat) :
    drainGo (fuel + 1) bytes buf close n =
      if bytes.length < 16 then
        some { nmessages := n, closeSet := close
               writes := if buf.length ≠ 0 then [buf] else [] }
      else
        let hd := bytes.take 16
        let rest := bytes.drop 16
        let cmd := leVal (hd.take 4)
        let plen := leVal ((hd.drop 8).take 8)
        if cmd = 1 then
          drainGo fuel rest buf true n
        else if cmd = 2 then
          if rest.length < plen then none
          else
            let payload := rest.take plen
            let rest2 := rest.drop plen
            if plen > writeBufSize - buf.length then
              if plen ≤ writeBufSize then
                (drainGo fuel rest2 payload close (n + 1)).map
                  fun res => { res with writes := buf :: res.writes }
              else
                (drainGo fuel rest2 [] close (n + 1)).map
                  fun res =>
                    { res with writes := buf :: payload :: res.writes }
            else
              drainGo fuel rest2 (buf ++ payload) close (n + 1)
        else none := rfl

theorem frame_take16 (c : Nat) (p rest : List Nat) :
    (encodeFrame c p ++ rest).take 16 = head16 c p.length := by
  rw [encodeFrame, List.append_assoc]
  exact List.take_left' (head16_length c p.length)

theorem frame_drop16 (c : Nat) (p rest : List Nat) :
    (encodeFrame c p ++ rest).drop 16 = p ++ rest := by
  rw [encodeFrame, List.append_assoc]
  exact List.drop_left' (head16_length c p.length)

theorem head16_cmd (c plen : Nat) :
    leVal ((head16 c plen).take 4) = c % W32 := by
  unfold head16
  rw [List.append_assoc, List.take_left' (leBytes_length 4 c), leVal_leBytes]
  norm_num [W32]

theorem head16_plen (c plen : Nat) :
    leVal (((head16 c plen).drop 8).take 8) = plen % W64 := by
  unfold head16
  have hlen : (leBytes 4 c ++ leBytes 4 0).length = 8 := by
    simp [leBytes_length]
  rw [List.drop_left' hlen,
    List.take_of_length_le (le_of_eq (leBytes_length 8 plen)),
    leVal_leBytes]
  norm_num [W64]

theorem drainGo_close_step (fuel : Nat) (rest buf : List Nat)
    (close : Bool) (n : Nat) :
    drainGo (fuel + 1) (encodeFrame 1 [] ++ rest) buf close n =
      drainGo fuel rest buf true n := by
  rw [drainGo_succ]
  rw [if_neg (by rw [List.length_append, encodeFrame_length]; omega)]
  simp only [frame_take16, frame_drop16, head16_cmd, head16_plen]
  rw [if_pos (by norm_num [W32])]
  simp

theorem drainGo_logmsg_step (fuel : Nat) (p rest buf : List Nat)
    (close : Bool) (n : Nat) (hp : p.length < W64) :
    drainGo (fuel + 1) (encodeFrame 2 p ++ rest) buf close n =
      if p.length > writeBufSize - buf.length then
        if p.length ≤ writeBufSize then
          (drainGo fuel rest p close (n + 1)).map
            fun res => { res with writes := buf :: res.writes }
        else
          (drainGo fuel rest [] close (n + 1)).map
            fun res => { res with writes := buf :: p :: res.writes }
      else
        drainGo fuel rest (buf ++ p) close (n + 1) := by
  rw [drainGo_succ]
  rw [if_neg (by rw [List.length_append, encodeFrame_length]; omega)]
  simp only [frame_take16, frame_drop16, head16_cmd, head16_plen]
  rw [if_neg (by norm_num [W32]), if_pos (by norm_num [W32]),
    Nat.mod_eq_of_lt hp]
  rw [if_neg (by rw [List.length_append]; omega)]
  rw [List.take_left' rfl, List.drop_left' rfl]

theorem drainGo_nil (fuel : Nat) (buf : List Nat) (close : Bool) (n : Nat) :
    drainGo fuel [] buf close n =
      some { nmessages := n, closeSet := close
             writes := if buf.length ≠ 0 then [buf] else [] } := by
  cases fuel with
  | zero => rfl
  | succ f =>
    rw [drainGo_succ]
    rw [if_pos (by simp)]

theorem if_buf_flatten (buf : List Nat) :
    (List.flatten (if buf.length ≠ 0 then [buf] else [])) = buf := by
  by_cases hb : buf.length ≠ 0
  · rw [if_pos hb]; simp
  · rw [if_neg hb]
    simp at hb
    simp [hb]

/-- Main drain lemma: one `ReadMessages` pass over a ring containing a
sequence of well-formed frames consumes every frame, counts the `LogMsg`
frames, sets the close flag when a `Close` frame is present, and issues
`Log.Write` calls whose concatenation is the staged buffer followed by the
`LogMsg` payloads in commit order; it never panics. -/
theorem drainGo_spec (fs : List (Nat × List Nat)) :
    ∀ fuel buf close n,
      (∀ f ∈ fs, GoodFrame f) →
      buf.length ≤ writeBufSize →
      fs.length ≤ fuel →
      ∃ res, drainGo fuel (encodeFrames fs) buf close n = some res ∧
        res.nmessages = n + countLog fs ∧
        res.closeSet = (close || anyClose fs) ∧
        res.writes.flatten = buf ++ (logPayloads fs).flatten := by
  induction fs with
  | nil =>
    intro fuel buf close n _ _ _
    refine ⟨_, drainGo_nil fuel buf close n, ?_, ?_, ?_⟩
    · simp [countLog]
    · simp [anyClose]
    · simp only [logPayloads, List.flatten, List.append_nil, if_buf_flatten]
  | cons f fs ih =>
    obtain ⟨c, p⟩ := f
    intro fuel buf close n hgood hbuf hfuel
    have hgf : GoodFrame (c, p) := hgood _ (List.mem_cons_self _ _)
    have hgood2 : ∀ g ∈ fs, GoodFrame g :=
      fun g hg => hgood g (List.mem_cons_of_mem _ hg)
    simp only [List.length_cons] at hfuel
    obtain ⟨fuel2, rfl⟩ : ∃ f2, fuel = f2 + 1 := ⟨fuel - 1, by omega⟩
    have hfuel2 : fs.length ≤ fuel2 := by omega
    show ∃ res,
      drainGo (fuel2 + 1) (encodeFrame c p ++ encodeFrames fs) buf close n
        = some res ∧ _
    rcases hgf with ⟨hc, hp⟩ | ⟨hc, hplen⟩
    · subst hc
      simp only at hp
      subst hp
      rw [drainGo_close_step]
      obtain ⟨res, hres, h1, h2, h3⟩ := ih fuel2 buf true n hgood2 hbuf hfuel2
      refine ⟨res, hres, ?_, ?_, ?_⟩
      · rw [h1]; simp [countLog]
      · rw [h2]; simp [anyClose]
      · rw [h3]; simp [logPayloads]
    · subst hc
      simp only at hplen
      rw [drainGo_logmsg_step fuel2 p (encodeFrames fs) buf close n hplen]
      by_cases hb1 : p.length > writeBufSize - buf.length
      · rw [if_pos hb1]
        by_cases hb2 : p.length ≤ writeBufSize
        · rw [if_pos hb2]
          obtain ⟨res, hres, h1, h2, h3⟩ :=
            ih fuel2 p close (n + 1) hgood2 hb2 hfuel2
          refine ⟨_, by rw [hres]; rfl, ?_, ?_, ?_⟩
          · simp only []
            rw [h1]
            simp [countLog]
            omega
          · simp only []
            rw [h2]
            simp [anyClose]
          · simp only [List.flatten_cons]
            rw [h3]
            simp [logPayloads]
        · rw [if_neg hb2]
          obtain ⟨res, hres, h1, h2, h3⟩ :=
            ih fuel2 [] close (n + 1) hgood2 (by simp [writeBufSize]) hfuel2
          refine ⟨_, by rw [hres]; rfl, ?_, ?_, ?_⟩
          · simp only []
            rw [h1]
            simp [countLog]
            omega
          · simp only []
            rw [h2]
            simp [anyClose]
          · simp only [List.flatten_cons]
            rw [h3]
            simp [logPayloads]
      · rw [if_neg hb1]
        have hlen : (buf ++ p).length ≤ writeBufSize := by
          rw [List.length_append]
          simp only [writeBufSize] at hbuf hb1 ⊢
          omega
        obtain ⟨res, hres, h1, h2, h3⟩ :=
          ih fuel2 (buf ++ p) close (n + 1) hgood2 hlen hfuel2
        refine ⟨res, hres, ?_, ?_, ?_⟩
        · rw [h1]; simp [countLog]; omega
        · rw [h2]; simp [anyClose]
        · rw [h3]; simp [logPayloads]

instance (f : Nat × List Nat) : Decidable (GoodFrame f) := by
  unfold GoodFrame; infer_instance

theorem encodeFrames_length_ge (fs : List (Nat × List Nat)) :
    fs.length ≤ (encodeFrames fs).length := by
  induction fs with
  | nil => simp [encodeFrames]
  | cons f fs ih =>
    obtain ⟨c, p⟩ := f
    simp only [encodeFrames, List.length_append, List.length_cons,
      encodeFrame_length]
    omega

theorem drainGo_badcmd (fuel : Nat) (c : Nat) (p rest buf : List Nat)
    (close : Bool) (n : Nat) (hcw : c < W32) (hc1 : c ≠ 1) (hc2 : c ≠ 2) :
    drainGo (fuel + 1) (encodeFrame c p ++ rest) buf close n = none := by
  rw [drainGo_succ]
  rw [if_neg (by rw [List.length_append, encodeFrame_length]; omega)]
  simp only [frame_take16, frame_drop16, head16_cmd, head16_plen]
  rw [Nat.mod_eq_of_lt hcw]
  rw [if_neg hc1, if_neg hc2]

/-- C7: in a single `ReadMessages()` pass over a ring committed with
well-formed frames, a `Close` frame only sets the received-close flag and
the loop continues, so every `LogMsg` frame in the ring — in particular
every one committed before the `Close` — is consumed and its payload
written out in the same pass, in order; the function returns the number of
`LogMsg` frames consumed; and reading a frame whose command is neither
`Close` (1) nor `LogMsg` (2) panics the writer. -/
theorem C7_readMessages (fs : List (Nat × List Nat))
    (hgood : ∀ f ∈ fs, GoodFrame f)
    (c : Nat) (p rest : List Nat) (hc1 : c ≠ 1) (hc2 : c ≠ 2)
    (hcw : c < W32) :
    (∃ res, readMessages (encodeFrames fs) = some res ∧
      res.nmessages = countLog fs ∧
      res.closeSet = anyClose fs ∧
      res.writes.flatten = (logPayloads fs).flatten) ∧
    readMessages (encodeFrame c p ++ rest) = none := by
  constructor
  · obtain ⟨res, hres, h1, h2, h3⟩ := drainGo_spec fs
      (encodeFrames fs).length [] false 0 hgood
      (by simp [writeBufSize]) (encodeFrames_length_ge fs)
    refine ⟨res, hres, by simpa using h1, by simpa using h2,
      by simpa using h3⟩
  · unfold readMessages
    have hlen : 16 ≤ (encodeFrame c p ++ rest).length := by
      rw [List.length_append, encodeFrame_length]; omega
    obtain ⟨m, hm⟩ : ∃ m, (encodeFrame c p ++ rest).length = m + 1 :=
      ⟨(encodeFrame c p ++ rest).length - 1, by omega⟩
    rw [hm]
    exact drainGo_badcmd m c p rest [] false 0 hcw hc1 hc2

/-- Witness for C7: a ring holding `LogMsg "A"`, `Close`, `LogMsg "BC"`
drains to 2 messages, the close flag, and the file bytes `A B C`; a frame
with command 3 panics. -/
theorem C7_readMessages_witness :
    (∃ res, readMessages
        (encodeFrames [(2, [65]), (1, []), (2, [66, 67])]) = some res ∧
      res.nmessages = 2 ∧
      res.closeSet = true ∧
      res.writes.flatten = [65, 66, 67]) ∧
    readMessages (encodeFrame 3 [7] ++ []) = none := by
  obtain ⟨⟨res, h1, h2, h3, h4⟩, h5⟩ :=
    C7_readMessages [(2, [65]), (1, []), (2, [66, 67])]
      (by decide) 3 [7] [] (by decide) (by decide) (by norm_num [W32])
  exact ⟨⟨res, h1, by rw [h2]; decide, by rw [h3]; decide,
    by rw [h4]; decide⟩, h5⟩

/-!
## Claim C1: file content after `close()` under arbitrary interleaving

Two process roles share the ring.  The producer's `SendMessage` hides the
multi-step header/payload copy behind a single release store to the write
cursor (the commit step, see `Logger::SendMessage`); until that store the
writer can observe none of the bytes, so a commit is one atomic event of
the interleaved system — exactly the granularity at which the claim is
phrased.  A writer event is one `ReadMessages()` drain pass (claim C7 /
`drainGo_spec` describe a single pass; a commit landing in the middle of a
pass is equivalent to a commit immediately before or after it, since the
pass re-reads `AvailableForRead` every iteration and either consumes the
new frame in this pass or leaves it fully intact for the next).  The
producer commits its `LogMsg` frames in program order and `close()` finally
commits a `Close` frame and waits for the writer, which drains until it has
seen the `Close`.
-/

/-- One event of the interleaved two-process system. -/
inductive Evt where
  | commit
  | drain
deriving Repr, DecidableEq

/-- Global state: frames the producer has not yet committed (in program
order), frames committed to the ring and not yet consumed, bytes in the
log file, and the writer's received-close flag. -/
structure SysState where
  pending : List (Nat × List Nat)
  ring : List (Nat × List Nat)
  file : List Nat
  close : Bool
deriving Repr, DecidableEq

/-- One scheduler step: either the producer's next commit completes (a
no-op when it has nothing left), or the writer runs one `ReadMessages`
pass, appending its `Log.Write` calls to the file; `none` models a writer
panic. -/
def sysStep (s : SysState) : Evt → Option SysState
  | .commit =>
    match s.pending with
    | [] => some s
    | f :: rest => some { s with pending := rest, ring := s.ring ++ [f] }
  | .drain =>
    (readMessages (encodeFrames s.ring)).map fun res =>
      { s with ring := []
               file := s.file ++ res.writes.flatten
               close := s.close || res.closeSet }

/-- Runs a schedule of events. -/
def sysRun : SysState → List Evt → Option SysState
  | s, [] => some s
  | s, e :: es => (sysStep s e).bind fun s2 => sysRun s2 es

/-- Initial state of a session that will log the given payloads and then
close: the producer will commit one `LogMsg` frame per payload, in order,
and finally one `Close` frame. -/
def initState (frames : List (List Nat)) : SysState :=
  { pending := frames.map (fun p => (2, p)) ++ [(1, [])]
    ring := [], file := [], close := false }

/-- A whole session: an arbitrary interleaving `sched` of commits and
drain passes, after which the producer finishes committing (`log_raw` and
`close()` block until their commit completes) and the writer, having
received or about to receive the `Close`, performs its final drain pass. -/
def runToClose (frames : List (List Nat)) (sched : List Evt) :
    Option SysState :=
  (sysRun (initState frames) sched).bind fun s1 =>
    (sysRun s1 (List.replicate s1.pending.length Evt.commit)).bind fun s2 =>
      sysStep s2 Evt.drain

theorem logPayloads_append (a b : List (Nat × List Nat)) :
    logPayloads (a ++ b) = logPayloads a ++ logPayloads b := by
  induction a with
  | nil => rfl
  | cons f a ih =>
    obtain ⟨c, p⟩ := f
    show logPayloads ((c, p) :: (a ++ b)) =
      logPayloads ((c, p) :: a) ++ logPayloads b
    by_cases hc : c = 2
    · simp only [logPayloads, if_pos hc, ih, List.cons_append]
    · simp only [logPayloads, if_neg hc, ih]

theorem anyClose_of_mem {fs : List (Nat × List Nat)} (h : (1, []) ∈ fs) :
    anyClose fs = true := by
  induction fs with
  | nil => cases h
  | cons f fs ih =>
    obtain ⟨c, p⟩ := f
    rcases List.mem_cons.mp h with heq | hmem
    · obtain ⟨hc, -⟩ := Prod.mk.injEq .. ▸ heq.symm
      simp [anyClose, hc.symm]
    · simp [anyClose, ih hmem]

/-- The writer never panics on a ring of well-formed frames: one pass
consumes everything, reports the `LogMsg` payload bytes in order and
whether a `Close` was seen. -/
theorem readMessages_good (fs : List (Nat × List Nat))
    (hg : ∀ f ∈ fs, GoodFrame f) :
    ∃ res, readMessages (encodeFrames fs) = some res ∧
      res.closeSet = anyClose fs ∧
      res.writes.flatten = (logPayloads fs).flatten := by
  obtain ⟨res, hres, _, h2, h3⟩ := drainGo_spec fs
    (encodeFrames fs).length [] false 0 hg
    (by simp [writeBufSize]) (encodeFrames_length_ge fs)
  exact ⟨res, hres, by simpa using h2, by simpa using h3⟩

/-- Invariant of the interleaved system: the committed prefix `done` of
the producer's frame list accounts for the file plus the unconsumed ring
(no duplication, loss, reordering or insertion), every frame in flight is
well-formed, and the `Close` frame is either still ahead, in the ring, or
already acknowledged by the writer's flag. -/
def SysInv (frames0 : List (Nat × List Nat)) (s : SysState) : Prop :=
  (∃ done, frames0 = done ++ s.pending ∧
    s.file ++ (logPayloads s.ring).flatten = (logPayloads done).flatten) ∧
  (∀ f ∈ s.ring, GoodFrame f) ∧
  (∀ f ∈ s.pending, GoodFrame f) ∧
  (s.close = true ∨ (1, []) ∈ s.ring ∨ (1, []) ∈ s.pending)

theorem sysStep_commit_nil (s : SysState) (h : s.pending = []) :
    sysStep s Evt.commit = some s := by
  unfold sysStep
  rw [h]

theorem sysStep_commit_cons (s : SysState) (f : Nat × List Nat)
    (rest : List (Nat × List Nat)) (h : s.pending = f :: rest) :
    sysStep s Evt.commit =
      some { s with pending := rest, ring := s.ring ++ [f] } := by
  unfold sysStep
  rw [h]

theorem sysStep_drain_eq (s : SysState)
    (hg : ∀ f ∈ s.ring, GoodFrame f) :
    ∃ res, readMessages (encodeFrames s.ring) = some res ∧
      sysStep s Evt.drain = some
        { s with ring := []
                 file := s.file ++ (logPayloads s.ring).flatten
                 close := s.close || anyClose s.ring } := by
  obtain ⟨res, hres, hc, hw⟩ := readMessages_good s.ring hg
  refine ⟨res, hres, ?_⟩
  unfold sysStep
  rw [hres]
  simp [hw, hc]

theorem sysStep_inv (frames0 : List (Nat × List Nat)) (s : SysState)
    (e : Evt) (h : SysInv frames0 s) :
    ∃ s2, sysStep s e = some s2 ∧ SysInv frames0 s2 := by
  obtain ⟨⟨done, hsplit, hacct⟩, hgr, hgp, hclose⟩ := h
  cases e with
  | commit =>
    cases hp : s.pending with
    | nil =>
      exact ⟨s, sysStep_commit_nil s hp,
        ⟨done, hsplit, hacct⟩, hgr, hgp, hclose⟩
    | cons f rest =>
      refine ⟨_, sysStep_commit_cons s f rest hp, ?_, ?_, ?_, ?_⟩
      · refine ⟨done ++ [f], ?_, ?_⟩
        · rw [hsplit, hp]
          simp
        · simp only [logPayloads_append, List.flatten_append]
          rw [← List.append_assoc, hacct]
      · intro g hgmem
        rcases List.mem_append.mp hgmem with hg1 | hg2
        · exact hgr g hg1
        · rw [List.mem_singleton.mp hg2]
          exact hgp f (by rw [hp]; exact List.mem_cons_self f rest)
      · intro g hgmem
        exact hgp g (by rw [hp]; exact List.mem_cons_of_mem f hgmem)
      · rcases hclose with hc | hc | hc
        · exact Or.inl hc
        · exact Or.inr (Or.inl (List.mem_append_left _ hc))
        · rw [hp] at hc
          rcases List.mem_cons.mp hc with heq | hmem
          · exact Or.inr (Or.inl (List.mem_append_right _
              (heq ▸ List.mem_singleton_self _)))
          · exact Or.inr (Or.inr hmem)
  | drain =>
    obtain ⟨res, hres, hstep⟩ := sysStep_drain_eq s hgr
    refine ⟨_, hstep, ?_, by simp, hgp, ?_⟩
    · refine ⟨done, hsplit, ?_⟩
      simp only [logPayloads, List.flatten_nil, List.append_nil]
      exact hacct
    · rcases hclose with hc | hc | hc
      · exact Or.inl (by simp [hc])
      · exact Or.inl (by simp [anyClose_of_mem hc])
      · exact Or.inr (Or.inr hc)

theorem sysRun_inv (frames0 : List (Nat × List Nat)) :
    ∀ (sched : List Evt) (s : SysState), SysInv frames0 s →
      ∃ s2, sysRun s sched = some s2 ∧ SysInv frames0 s2 := by
  intro sched
  induction sched with
  | nil => intro s h; exact ⟨s, rfl, h⟩
  | cons e es ih =>
    intro s h
    obtain ⟨s2, hstep, hinv2⟩ := sysStep_inv frames0 s e h
    obtain ⟨s3, hrun, hinv3⟩ := ih s2 hinv2
    refine ⟨s3, ?_, hinv3⟩
    unfold sysRun
    rw [hstep]
    exact hrun

theorem commitAll (frames0 : List (Nat × List Nat)) :
    ∀ (n : Nat) (s : SysState), SysInv frames0 s → s.pending.length = n →
      ∃ s2, sysRun s (List.replicate n Evt.commit) = some s2 ∧
        SysInv frames0 s2 ∧ s2.pending = [] := by
  intro n
  induction n with
  | zero =>
    intro s hinv hlen
    exact ⟨s, rfl, hinv, List.eq_nil_of_length_eq_zero hlen⟩
  | succ n ih =>
    intro s hinv hlen
    cases hp : s.pending with
    | nil => rw [hp] at hlen; simp at hlen
    | cons f rest =>
      have hstep := sysStep_commit_cons s f rest hp
      obtain ⟨s2, hstep2, hinv2⟩ := sysStep_inv frames0 s Evt.commit hinv
      rw [hstep] at hstep2
      have hs2eq : { s with pending := rest, ring := s.ring ++ [f] } = s2 :=
        Option.some.inj hstep2
      rw [← hs2eq] at hinv2
      obtain ⟨s3, hrun3, hinv3, hpend3⟩ := ih
        { s with pending := rest, ring := s.ring ++ [f] } hinv2
        (by rw [hp] at hlen; simpa using hlen)
      refine ⟨s3, ?_, hinv3, hpend3⟩
      rw [List.replicate_succ]
      show (sysStep s Evt.commit).bind
        (fun s4 => sysRun s4 (List.replicate n Evt.commit)) = some s3
      rw [hstep]
      exact hrun3

theorem logPayloads_map_log (frames : List (List Nat)) :
    logPayloads (frames.map (fun p => (2, p))) = frames := by
  induction frames with
  | nil => rfl
  | cons p fs ih => simp [logPayloads, ih]

/-- C1: for every sequence of producer `log_raw` calls and every
interleaving of the writer's drain passes, the bytes in the log file after
`close()` returns equal the concatenation, in commit order, of exactly the
committed payloads — no payload duplicated, reordered, dropped, or
inserted.  (In a run in which `close()` returns, every `log_raw` call's
commit step completed, since `SendMessage` blocks until it can commit;
payloads whose commit never happened do not appear in `frames`.) -/
theorem C1_close_file_content (frames : List (List Nat))
    (hlen : ∀ p ∈ frames, p.length < W64) (sched : List Evt) :
    ∃ s, runToClose frames sched = some s ∧
      s.file = frames.flatten ∧ s.close = true ∧
      s.ring = [] ∧ s.pending = [] := by
  have hinv0 : SysInv (frames.map (fun p => (2, p)) ++ [(1, [])])
      (initState frames) := by
    refine ⟨⟨[], by simp [initState], by simp [initState, logPayloads]⟩,
      ?_, ?_, ?_⟩
    · intro f hf
      exact absurd hf (List.not_mem_nil f)
    · intro f hf
      simp only [initState] at hf
      rcases List.mem_append.mp hf with hf1 | hf2
      · obtain ⟨p, hp, rfl⟩ := List.mem_map.mp hf1
        exact Or.inr ⟨rfl, hlen p hp⟩
      · rw [List.mem_singleton.mp hf2]
        exact Or.inl ⟨rfl, rfl⟩
    · exact Or.inr (Or.inr
        (List.mem_append_right _ (List.mem_singleton_self _)))
  obtain ⟨s1, hrun1, hinv1⟩ := sysRun_inv _ sched _ hinv0
  obtain ⟨s2, hrun2, hinv2, hpend2⟩ :=
    commitAll _ s1.pending.length s1 hinv1 rfl
  obtain ⟨res, hres, hstep⟩ := sysStep_drain_eq s2 hinv2.2.1
  obtain ⟨⟨done, hsplit, hacct⟩, _, _, hclose2⟩ := hinv2
  have hdone : done = frames.map (fun p => (2, p)) ++ [(1, [])] := by
    rw [hsplit, hpend2, List.append_nil]
  have hfile : s2.file ++ (logPayloads s2.ring).flatten = frames.flatten := by
    rw [hacct, hdone, logPayloads_append, logPayloads_map_log]
    simp [logPayloads]
  have hclosefin : (s2.close || anyClose s2.ring) = true := by
    rcases hclose2 with hc | hc | hc
    · simp [hc]
    · simp [anyClose_of_mem hc]
    · rw [hpend2] at hc
      exact absurd hc (List.not_mem_nil _)
  refine ⟨{ s2 with ring := [], file := s2.file ++ (logPayloads s2.ring).flatten, close := s2.close || anyClose s2.ring }, ?_, hfile, hclosefin, rfl, hpend2⟩
  unfold runToClose
  rw [hrun1]
  show (sysRun s1 (List.replicate s1.pending.length Evt.commit)).bind
    (fun s4 => sysStep s4 Evt.drain) = _
  rw [hrun2]
  exact hstep

/-- Witness for C1: one payload `HI`, drained across an interleaving with
an early empty drain pass; the file ends as exactly `HI` and the writer saw
the close. -/
theorem C1_close_file_content_witness :
    runToClose [[72, 73]] [Evt.drain, Evt.commit, Evt.drain] =
      some { pending := [], ring := [], file := [72, 73], close := true } := by
  obtain ⟨s, hrun, hfile, hclose, hring, hpend⟩ :=
    C1_close_file_content [[72, 73]]
      (by
        intro p hp
        rw [List.mem_singleton.mp hp]
        norm_num [W64])
      [Evt.drain, Evt.commit, Evt.drain]
  have hs : s = { pending := [], ring := [], file := [72, 73], close := true } := by
    cases s
    simp_all
  rw [← hs]
  exact hrun


/-!
## Claim C8: `LogFile::Write` rollover and archive pruning (uberlogger.cpp)

`LogFile::Write(buf, len)` checks `FileSize + len > MaxFileSize` and in
that case calls `RollOver()`: close, rename the active file to the
UTC-timestamped `ArchiveFilename()`, then prune old archives.  On the
POSIX branch `FindArchiveFiles()` calls `glob` on the absolute wildcard
(`Logger::Open` resolves the log path through `FullPath`, so `Filename`
is absolute); `glob` therefore already yields full pathnames, yet the loop
stores `dir + pglob.gl_pathv[i]` — `LogDir()` prepended a second time.
The pruning loop then calls `remove(archives[i].c_str())` for
`i < archives.size() - MaxNumArchiveFiles`, ignoring failures.  Because
every stored name carries a doubled directory prefix, every `remove` call
names a path that exists nowhere on disk and fails, so on Linux no archive
is ever deleted.  (The Windows branch combines `dir + fd.cFileName`, where
`cFileName` is only the final component, and is not affected.)  Paths are
byte lists; `fs` is the set of paths that exist on disk; the `std::sort`
between globbing and pruning only permutes the listing and does not affect
which (failing) deletions are attempted or the surviving set.
-/

/-- Byte values of a string literal (ASCII). -/
def strBytes (s : String) : List Nat := s.data.map Char.toNat

/-- C cast of a (possibly negative) integer to `size_t`. -/
def castSizeT (i : Int) : Nat := ((i + W64) % W64).toNat

/-- `ArchiveFilename()`: `base-YYYY-MM-DDTHH-MM-SS-mmm-Z.ext`, built with
`strftime("-%Y-%m-%dT%H-%M-%S-")` plus zero-padded milliseconds and `-Z`,
all in UTC. -/
def archiveFilename (base ext : String) (y mo d h mi s ms : Nat) : String :=
  base ++ "-" ++ toString y ++ "-" ++ toString mo ++ "-" ++ toString d ++
    "T" ++ toString h ++ "-" ++ toString mi ++ "-" ++ toString s ++ "-" ++
    toString ms ++ "-Z" ++ ext

/-- POSIX `FindArchiveFiles()`: the names it returns are
`dir + pglob.gl_pathv[i]` with `gl_pathv[i]` already an absolute path. -/
def findArchiveFilesPosix (dir : List Nat) (globMatches : List (List Nat)) :
    List (List Nat) :=
  globMatches.map (fun m => dir ++ m)

/-- One `remove(path)` call with its return value ignored: the path
disappears when it exists; otherwise the call fails and nothing changes
(deletion failure is silent and non-fatal). -/
def removeModel (fs : List (List Nat)) (p : List Nat) : List (List Nat) :=
  fs.erase p

/-- The pruning step of `RollOver()`: when the listing exceeds
`MaxNumArchiveFiles`, `remove(archives[i])` is issued for
`i < archives.size() - MaxNumArchiveFiles`; returns the paths still on
disk afterwards. -/
def rollOverDeletions (maxN : Int) (archives : List (List Nat))
    (fs : List (List Nat)) : List (List Nat) :=
  if archives.length > castSizeT maxN then
    (archives.take (archives.length - castSizeT maxN)).foldl removeModel fs
  else fs

/-- Guard of `LogFile::Write` that decides whether `RollOver()` runs
before the write. -/
def writeTriggersRollOver (maxFileSize fileSize : Int) (n : Nat) : Bool :=
  decide (fileSize + (n : Int) > maxFileSize)

theorem foldl_remove_of_not_mem (l : List (List Nat)) :
    ∀ fs, (∀ p ∈ l, p ∉ fs) → l.foldl removeModel fs = fs := by
  induction l with
  | nil => intro fs _; rfl
  | cons p l ih =>
    intro fs h
    have h1 : removeModel fs p = fs :=
      List.erase_of_not_mem (h p (List.mem_cons_self p l))
    show (p :: l).foldl removeModel fs = fs
    rw [List.foldl_cons, h1]
    exact ih fs (fun q hq => h q (List.mem_cons_of_mem p hq))

/-- C8 (code bug, POSIX path): the rollover is attempted exactly when
`FileSize + n` would exceed `MaxFileSize`, but the pruning loop deletes
nothing: every name in the listing is `dir ++ m` for a glob match `m` that
is itself absolute, so the `remove` target is a mangled path that is not
on disk (`hmangled`), every deletion fails silently, and the set of
on-disk archives is unchanged — whenever more than `MaxNumArchiveFiles`
archives existed, more than `MaxNumArchiveFiles` remain after the
rollover, contradicting the claimed retention bound. -/
theorem C8_posix_prune_deletes_nothing (maxFileSize maxN fileSize : Int)
    (n : Nat) (dir : List Nat) (globMatches fs : List (List Nat))
    (hmangled : ∀ m ∈ globMatches, dir ++ m ∉ fs) :
    writeTriggersRollOver maxFileSize fileSize n =
        decide (fileSize + (n : Int) > maxFileSize) ∧
      rollOverDeletions maxN (findArchiveFilesPosix dir globMatches) fs
        = fs := by
  refine ⟨rfl, ?_⟩
  unfold rollOverDeletions
  by_cases hc :
    (findArchiveFilesPosix dir globMatches).length > castSizeT maxN
  · rw [if_pos hc]
    apply foldl_remove_of_not_mem
    intro p hp
    have hp2 : p ∈ findArchiveFilesPosix dir globMatches :=
      List.take_subset _ _ hp
    obtain ⟨m, hm, rfl⟩ := List.mem_map.mp hp2
    exact hmangled m hm
  · rw [if_neg hc]

/-- Witness for C8 at the failing input: `/var/log/app.log` with four
archives on disk and `MaxNumArchiveFiles = 2`; after the rollover's
pruning loop all four archives remain. -/
theorem C8_posix_prune_deletes_nothing_witness :
    rollOverDeletions 2
        (findArchiveFilesPosix (strBytes "/var/log/")
          [strBytes "/var/log/app-1.log", strBytes "/var/log/app-2.log",
            strBytes "/var/log/app-3.log", strBytes "/var/log/app-4.log"])
        [strBytes "/var/log/app-1.log", strBytes "/var/log/app-2.log",
          strBytes "/var/log/app-3.log", strBytes "/var/log/app-4.log"] =
      [strBytes "/var/log/app-1.log", strBytes "/var/log/app-2.log",
        strBytes "/var/log/app-3.log", strBytes "/var/log/app-4.log"] ∧
      castSizeT 2 <
        ([strBytes "/var/log/app-1.log", strBytes "/var/log/app-2.log",
          strBytes "/var/log/app-3.log",
          strBytes "/var/log/app-4.log"]).length := by
  have h := C8_posix_prune_deletes_nothing 10 2 5 8
    (strBytes "/var/log/")
    [strBytes "/var/log/app-1.log", strBytes "/var/log/app-2.log",
      strBytes "/var/log/app-3.log", strBytes "/var/log/app-4.log"]
    [strBytes "/var/log/app-1.log", strBytes "/var/log/app-2.log",
      strBytes "/var/log/app-3.log", strBytes "/var/log/app-4.log"]
    (by decide)
  exact ⟨h.2, by decide⟩
/-!
## Claim C9: `SharedMemObjectName` (uberlog.cpp)

The source builds two 16-byte keys — `key1 = {0,1,...,15}` and
`key2 = {15,14,...,1}` (15 initialisers, so the 16th byte is zero-filled) —
then `memcpy`s the parent PID over the FIRST FOUR BYTES OF `key1` ONLY,
hashes the log path with SipHash-2-4 under each key, and prints
`/uberlog-shm-%u-%08x%08x%08x%08x` (no leading slash on Windows).  All
64-bit arithmetic below is `uint64_t` (mod `2 ^ 64`); byte strings are
lists of byte values.
-/

/-- ROTATE of the SipHash implementation: 64-bit rotate left. -/
def rotl64 (x b : Nat) : Nat := ((x <<< b) % W64) ||| (x >>> (64 - b))

/-- HALF_ROUND(a, b, c, d, s, t). -/
def halfRound (a b c d s t : Nat) : Nat × Nat × Nat × Nat :=
  let a := (a + b) % W64
  let c := (c + d) % W64
  let b := rotl64 b s ^^^ a
  let d := rotl64 d t ^^^ c
  let a := rotl64 a 32
  (a, b, c, d)

/-- DOUBLE_ROUND(v0, v1, v2, v3). -/
def doubleRound (v : Nat × Nat × Nat × Nat) : Nat × Nat × Nat × Nat :=
  let (v0, v1, v2, v3) := v
  let (v0, v1, v2, v3) := halfRound v0 v1 v2 v3 13 16
  let (v2, v1, v0, v3) := halfRound v2 v1 v0 v3 17 21
  let (v0, v1, v2, v3) := halfRound v0 v1 v2 v3 13 16
  let (v2, v1, v0, v3) := halfRound v2 v1 v0 v3 17 21
  (v0, v1, v2, v3)

/-- The `while (src_sz >= 8)` loop: consumes full 8-byte little-endian
words, returning the final state and the remaining tail (fewer than 8
bytes). -/
def sipLoop : List Nat → Nat × Nat × Nat × Nat →
    (Nat × Nat × Nat × Nat) × List Nat
  | b0 :: b1 :: b2 :: b3 :: b4 :: b5 :: b6 :: b7 :: rest, (v0, v1, v2, v3) =>
    let mi := leVal [b0, b1, b2, b3, b4, b5, b6, b7]
    let v3 := v3 ^^^ mi
    let (v0, v1, v2, v3) := doubleRound (v0, v1, v2, v3)
    let v0 := v0 ^^^ mi
    sipLoop rest (v0, v1, v2, v3)
  | tail, v => (v, tail)

/-- `siphash24(src, src_sz, key)` over a byte-list message and a 16-byte
key.  The final `switch` fills `t` with the little-endian tail bytes; the
return value is a `uint64_t`. -/
def siphash24 (msg key : List Nat) : Nat :=
  let k0 := leVal (key.take 8)
  let k1 := leVal ((key.drop 8).take 8)
  let b := ((msg.length % W64) <<< 56) % W64
  let v0 := k0 ^^^ 0x736f6d6570736575
  let v1 := k1 ^^^ 0x646f72616e646f6d
  let v2 := k0 ^^^ 0x6c7967656e657261
  let v3 := k1 ^^^ 0x7465646279746573
  let (v, tail) := sipLoop msg (v0, v1, v2, v3)
  let b := b ||| leVal tail
  let (v0, v1, v2, v3) := v
  let v3 := v3 ^^^ b
  let (v0, v1, v2, v3) := doubleRound (v0, v1, v2, v3)
  let v0 := v0 ^^^ b
  let v2 := v2 ^^^ 0xff
  let (v0, v1, v2, v3) := doubleRound (doubleRound (v0, v1, v2, v3))
  ((v0 ^^^ v1) ^^^ (v2 ^^^ v3)) % W64

/-- `key1` after `memcpy(key1, &parentID, 4)`: the little-endian PID bytes
over `{0,1,2,3}`, the rest unchanged. -/
def shmKey1 (pid : Nat) : List Nat :=
  [pid % 256, pid / 256 % 256, pid / 65536 % 256, pid / 16777216 % 256,
    4, 5, 6, 7, 8, 9, 10, 11, 12, 13, 14, 15]

/-- `key2 = {15, 14, ..., 1}` — 15 initialisers, 16th byte zero-filled —
NOT patched with the PID. -/
def shmKey2 : List Nat := [15, 14, 13, 12, 11, 10, 9, 8, 7, 6, 5, 4, 3, 2, 1, 0]

/-- Modelled from the claim's words (not the source): the second key with
its first 4 bytes replaced by the PID as well. -/
def shmKey2Claim (pid : Nat) : List Nat :=
  [pid % 256, pid / 256 % 256, pid / 65536 % 256, pid / 16777216 % 256,
    11, 10, 9, 8, 7, 6, 5, 4, 3, 2, 1, 0]

/-- ASCII code of a lowercase hex digit. -/
def hexDigit (n : Nat) : Nat := if n < 10 then 48 + n else 87 + n

/-- `%0<n>x`: exactly `n` lowercase hex digits, most significant first. -/
def hexBytes : Nat → Nat → List Nat
  | 0, _ => []
  | n + 1, v => hexBytes n (v / 16) ++ [hexDigit (v % 16)]

/-- Decimal digits of `v` (`%u`), as ASCII codes. -/
def decBytesAux : Nat → Nat → List Nat
  | 0, _ => []
  | f + 1, v => if v = 0 then [] else decBytesAux f (v / 10) ++ [48 + v % 10]

/-- ASCII decimal rendering of `v`. -/
def decBytes (v : Nat) : List Nat :=
  if v = 0 then [48] else decBytesAux 32 v

/-- `SharedMemObjectName(parentID, logFilename, shmName)` on the POSIX
path: `sprintf(shmName, "/uberlog-shm-%u-%08x%08x%08x%08x", parentID,
h1 >> 32, (u32) h1, h2 >> 32, (u32) h2)` with `h1 = siphash24(path, key1)`
and `h2 = siphash24(path, key2)`. -/
def sharedMemObjectName (pid : Nat) (path : List Nat) : List Nat :=
  strBytes "/uberlog-shm-" ++ decBytes (pid % W32) ++ strBytes "-" ++
    hexBytes 8 ((siphash24 path (shmKey1 pid) >>> 32) % W32) ++
    hexBytes 8 (siphash24 path (shmKey1 pid) % W32) ++
    hexBytes 8 ((siphash24 path shmKey2 >>> 32) % W32) ++
    hexBytes 8 (siphash24 path shmKey2 % W32)

/-- The name as the claim describes it: `uberlog-shm-{pid}-` followed by
the 16-digit hex of two SipHash-2-4 digests whose keys BOTH have their
first 4 bytes replaced by the parent PID (leading `/` on POSIX). -/
def sharedMemObjectNameClaim (pid : Nat) (path : List Nat) : List Nat :=
  strBytes "/uberlog-shm-" ++ decBytes (pid % W32) ++ strBytes "-" ++
    hexBytes 16 (siphash24 path (shmKey1 pid)) ++
    hexBytes 16 (siphash24 path (shmKey2Claim pid))

/-- The claim amended to the source: only the first key is patched with
the PID; the second key is the fixed constant `{15, 14, ..., 1, 0}`. -/
def sharedMemObjectNameAmended (pid : Nat) (path : List Nat) : List Nat :=
  strBytes "/uberlog-shm-" ++ decBytes (pid % W32) ++ strBytes "-" ++
    hexBytes 16 (siphash24 path (shmKey1 pid)) ++
    hexBytes 16 (siphash24 path shmKey2)

theorem hexBytes_split (m n : Nat) :
    ∀ v, hexBytes (m + n) v =
      hexBytes m (v / 16 ^ n) ++ hexBytes n (v % 16 ^ n) := by
  induction n with
  | zero =>
    intro v
    simp [hexBytes, Nat.pow_zero, Nat.div_one, Nat.mod_one]
  | succ n ih =>
    intro v
    show hexBytes ((m + n) + 1) v = _
    have hl : hexBytes ((m + n) + 1) v =
        hexBytes (m + n) (v / 16) ++ [hexDigit (v % 16)] := rfl
    have hr : hexBytes (n + 1) (v % 16 ^ (n + 1)) =
        hexBytes n (v % 16 ^ (n + 1) / 16) ++
          [hexDigit (v % 16 ^ (n + 1) % 16)] := rfl
    rw [hl, hr, ih (v / 16)]
    have h1 : v / 16 / 16 ^ n = v / 16 ^ (n + 1) := by
      rw [Nat.div_div_eq_div_mul, ← Nat.pow_succ']
    have h2 : v % 16 ^ (n + 1) / 16 = v / 16 % 16 ^ n := by
      rw [Nat.pow_succ', Nat.mod_mul_right_div_self]
    have h3 : v % 16 ^ (n + 1) % 16 = v % 16 := by
      exact Nat.mod_mod_of_dvd v (dvd_pow_self 16 (Nat.succ_ne_zero n))
    rw [h1, h2, h3, List.append_assoc]

theorem siphash24_lt (msg key : List Nat) : siphash24 msg key < W64 := by
  unfold siphash24
  exact Nat.mod_lt _ (by unfold W64; positivity)

/-- C9 counterexample: at `parent_pid = 1`, `path = "a"`, the name the
source computes differs from the name the claim describes, because the
source patches the PID into the first key only, while the claim patches it
into both. -/
theorem C9_second_key_not_patched :
    sharedMemObjectName 1 (strBytes "a") ≠
      sharedMemObjectNameClaim 1 (strBytes "a") := by
  decide

/-- C9 (amended): for every `(parent_pid, log_path)` pair the shared-memory
object name is `/uberlog-shm-{pid as %u}-` followed by the 16-hex-digit
renderings of two 64-bit SipHash-2-4 digests of the log path, computed with
two distinct fixed 16-byte keys of which only the FIRST has its first 4
bytes replaced by the parent PID (the source prints each digest as
`%08x%08x` of its two halves, which equals the 16-digit rendering). -/
theorem C9_sharedMemObjectName (pid : Nat) (path : List Nat) :
    sharedMemObjectName pid path = sharedMemObjectNameAmended pid path := by
  unfold sharedMemObjectName sharedMemObjectNameAmended
  have hsplit : ∀ h : Nat, h < W64 →
      hexBytes 8 ((h >>> 32) % W32) ++ hexBytes 8 (h % W32) =
        hexBytes 16 h := by
    intro h hh
    have h16 : (16 : Nat) ^ 8 = 2 ^ 32 := by norm_num
    have hshift : (h >>> 32) % W32 = h / 16 ^ 8 := by
      rw [Nat.shiftRight_eq_div_pow, h16]
      apply Nat.mod_eq_of_lt
      unfold W32
      apply Nat.div_lt_of_lt_mul
      unfold W64 at hh
      calc h < 2 ^ 64 := hh
      _ = 2 ^ 32 * 2 ^ 32 := by norm_num
    have hmod : h % W32 = h % 16 ^ 8 := by rw [h16]; rfl
    rw [hshift, hmod]
    exact (hexBytes_split 8 8 h).symm
  rw [← hsplit _ (siphash24_lt path (shmKey1 pid)),
    ← hsplit _ (siphash24_lt path shmKey2)]
  simp [List.append_assoc]

end Uberlog
